import Mathlib

/-!
Verification of the wp-file-analyser core: a shallow embedding of
`wpanalyser/analyser.py` (path classifier, metadata extractor, tree-diff
engine, report formatter) together with theorems settling the spec claims.

Python strings are modelled as Lean `String` (lists of characters), Python
`set` as `Finset String`, a text file as `List String` (the lines exactly as
Python's file iteration yields them).  A file that cannot be opened is
modelled by `Option`: `none` stands for an open failure.  POSIX path
semantics (`os.path.join`, `os.path.abspath`, `os.path.normpath`) are
modelled character-precisely below; since `os.path.abspath` resolves
relative paths against the process working directory, the embedding threads
an explicit `cwd` argument through the functions that call it.
-/

/-- Character constants used by the analyser: the single quote searched for by
`find_wp_version`. -/
def quoteChar : Char := '\''

/-- Model of Python `str.find(c, start)` for a single-character needle:
the least index `i ≥ start` with `s[i] = c`, or `-1` when there is none.
`firstIdx` is the underlying search in a character list. -/
def firstIdx (c : Char) : List Char → Option Nat
  | [] => none
  | a :: l => if a = c then some 0 else (firstIdx c l).map (· + 1)

/-- Model of Python `str.find(c, start)` (single-character needle), returning
`-1` when the character does not occur at or after `start`. -/
def strFindChar (s : String) (c : Char) (start : Nat) : Int :=
  match firstIdx c (s.data.drop start) with
  | some k => Int.ofNat (start + k)
  | none => -1

/-- Model of Python `str.find(sub)`: index of the first occurrence of `pat`
in `l`, or `none`.  (Python returns `-1`; callers below only compare against
`-1`, which `Option` captures.) -/
def findSub (l pat : List Char) : Option Nat :=
  if pat.isPrefixOf l then some 0
  else
    match l with
    | [] => none
    | _ :: t => (findSub t pat).map (· + 1)

/-- Model of the Python membership test `sub in s` on strings (`sub in s`
holds exactly when `s.find(sub)` is not `-1`). -/
def pyIn (sub s : String) : Bool := (findSub s.data sub.data).isSome

/-- Model of Python `str.strip()`: remove leading and trailing whitespace. -/
def pyStrip (s : String) : String :=
  ⟨((s.data.dropWhile Char.isWhitespace).reverse.dropWhile Char.isWhitespace).reverse⟩

/-- Model of POSIX `os.path.join(a, b)`: `b` if it is absolute, otherwise `a`
and `b` glued with exactly one separator. -/
def pyJoin (a b : String) : String :=
  if b.data.head? = some '/' then b
  else if a.data = [] ∨ a.data.getLast? = some '/' then a ++ b
  else a ++ "/" ++ b

/-- Model of Python `str.split(sep)` for the one-character separator `/`
(empty pieces are kept, as in Python). -/
def splitSlash : List Char → List (List Char)
  | [] => [[]]
  | c :: rest =>
    let r := splitSlash rest
    if c = '/' then [] :: r
    else
      match r with
      | [] => [[c]]
      | h :: t => (c :: h) :: t

/-- Intercalate the path components of a normalised path with `/`
(the `sep.join(comps)` step of `posixpath.normpath`). -/
def joinComps : List (List Char) → List Char
  | [] => []
  | [c] => c
  | c :: rest => c ++ '/' :: joinComps rest

/-- One step of the component loop of `posixpath.normpath`: drop empty and
`.` components, let `..` pop the last kept component (except for leading `..`
of a relative path, which is kept, and of an absolute path, which is
dropped). -/
def normComp (slashes : Nat) (acc : List (List Char)) (comp : List Char) : List (List Char) :=
  if comp = [] ∨ comp = ['.'] then acc
  else if comp ≠ ['.', '.'] ∨ (slashes = 0 ∧ acc = []) ∨ acc.getLast? = some ['.', '.'] then
    acc ++ [comp]
  else if acc ≠ [] then acc.dropLast
  else acc

/-- Leading-slash count of `posixpath.normpath`: `initial_slashes` is 1 for
an absolute path and 2 for a path starting with exactly two slashes (which
POSIX allows to have its own meaning). -/
def normpathSlashes (cs : List Char) : Nat :=
  if cs.head? = some '/' then
    if (cs.drop 1).head? = some '/' ∧ ¬ (cs.drop 2).head? = some '/' then 2 else 1
  else 0

/-- Model of `posixpath.normpath`: collapse repeated separators, `.` and `..`
components; one or two leading slashes are preserved as POSIX requires. -/
def normpath (p : String) : String :=
  let cs := p.data
  let slashes : Nat := normpathSlashes cs
  let comps := (splitSlash cs).foldl (normComp slashes) []
  let out := List.replicate slashes '/' ++ joinComps comps
  if out = [] then "." else ⟨out⟩

/-- Model of `os.path.abspath`: resolve against the working directory `cwd`
and normalise.  (`posixpath.abspath` is `normpath(join(cwd, p))`.) -/
def abspath (cwd p : String) : String := normpath (pyJoin cwd p)

/-- Embedding of `is_subdir` (analyser.py lines 140-144): `child` resolves to
a strict subdirectory of `parent`, by absolute-path prefix match with a
path-separator boundary. -/
def is_subdir (cwd : String) (child parent : String) : Bool :=
  let absPath := abspath cwd child
  let absDir := abspath cwd parent
  (absDir ++ "/").data.isPrefixOf absPath.data

/-- Embedding of the `IGNORED_WP_DIRS` configuration constant. -/
def IGNORED_WP_DIRS : List String := ["wp-content/themes", "wp-content/uploads"]

/-- Embedding of `ignored_file` (analyser.py lines 147-153): a path is ignored
when some configured subpath occurs in it as a substring and the path is a
strict subdirectory of `wpPath/s`. -/
def ignored_file (cwd : String) (f wpPath : String) : Bool :=
  IGNORED_WP_DIRS.any (fun s => pyIn s f && is_subdir cwd f (pyJoin wpPath s))

/-- Embedding of `search_file_for_string` (analyser.py lines 156-165): the
file is `none` when it cannot be opened (`open_file` returned `False`), in
which case the function returns `False`; otherwise the first line containing
`string` is returned, or `False` when there is none. -/
def search_file_for_string (file : Option (List String)) (string : String) : Option String :=
  match file with
  | none => none
  | some lines => lines.find? (fun line => pyIn string line)

/-- Extraction step of `find_wp_version` (analyser.py lines 176-181) on the
line found: `cutStart` is one past the first single quote, `cutEnd` the first
single quote at index at least `cutStart + 1`; the slice between them is the
version, and inconsistent cut positions give `False`. -/
def extract_wp_version (line : String) : Option String :=
  let cutStart : Int := strFindChar line quoteChar 0 + 1
  let cutEnd : Int := strFindChar line quoteChar (cutStart + 1).toNat
  if cutStart ≤ 0 ∨ cutEnd ≤ cutStart then none
  else some ⟨(line.data.take cutEnd.toNat).drop cutStart.toNat⟩

/-- Embedding of `find_wp_version` (analyser.py lines 168-181): search the
version file for the first line containing `$wp_version =` and cut the
version literal out of it. -/
def find_wp_version (file : Option (List String)) : Option String :=
  match search_file_for_string file "$wp_version =" with
  | none => none
  | some line => if line = "" then none else extract_wp_version line

/-- Embedding of the line loop of `search_file_for_key` (analyser.py lines
300-306): the first line containing `key` whose trimmed tail after the key is
non-empty yields that tail; other lines are passed over. -/
def searchLinesForKey (key : String) : List String → Option String
  | [] => none
  | l :: ls =>
    match findSub l.data key.data with
    | none => searchLinesForKey key ls
    | some pos =>
      let value := pyStrip ⟨l.data.drop (pos + key.length)⟩
      if value = "" then searchLinesForKey key ls else some value

/-- Embedding of `search_file_for_key` (analyser.py lines 298-306).  Unlike
`search_file_for_string` it opens the file directly (`filepath.open`), so an
open failure raises: `none` content maps to `Except.error`. -/
def search_file_for_key (content : Option (List String)) (key : String) :
    Except Unit (Option String) :=
  match content with
  | none => Except.error ()
  | some lines => Except.ok (searchLinesForKey key lines)

/-- Model of a plugin or theme directory: the directory's own name and its
files.  A pair `(fn, none)` is a file that exists but cannot be opened; a
pair `(fn, some lines)` is a readable file. -/
structure PDir where
  name : String
  files : List (String × Option (List String))

/-- Lookup in a `PDir`: `none` when the file does not exist (`Path.exists()`
is false), otherwise its open outcome. -/
def PDir.find (d : PDir) (fn : String) : Option (Option (List String)) :=
  (d.files.find? (fun e => e.1 = fn)).map (fun e => e.2)

/-- Model of Python `str.replace(old, new)` for one-character arguments, as
used on the plugin directory name. -/
def strReplace (s : String) (old new : Char) : String :=
  ⟨s.data.map (fun c => if c = old then new else c)⟩

/-- Candidate metadata files of `find_plugin_details` (analyser.py lines
259-263), in priority order. -/
def pluginVariants (d : PDir) : List (String × String) :=
  [("readme.txt", "Stable tag:"),
   (d.name ++ ".php", "Version:"),
   (strReplace d.name '-' '_' ++ ".php", "Version:")]

/-- Candidate loop of `find_plugin_details` (analyser.py lines 264-269): try
each existing candidate file in order and stop at the first non-`None`
value; an open error propagates. -/
def tryVariants (d : PDir) : List (String × String) → Except Unit (Option String)
  | [] => Except.ok none
  | (fn, key) :: rest =>
    match d.find fn with
    | none => tryVariants d rest
    | some content =>
      match search_file_for_key content key with
      | Except.error e => Except.error e
      | Except.ok (some v) => Except.ok (some v)
      | Except.ok none => tryVariants d rest

/-- Embedding of `find_plugin_details` (analyser.py lines 255-270): the name
is always the directory's own name, the version the first candidate hit. -/
def find_plugin_details (d : PDir) : Except Unit (String × Option String) :=
  (tryVariants d (pluginVariants d)).map (fun v => (d.name, v))

/-- Embedding of `find_theme_details` (analyser.py lines 287-295): both the
name (`Text Domain:`) and the version (`Version:`) come from `style.css`;
when that file does not exist the result is `(None, None)`. -/
def find_theme_details (d : PDir) : Except Unit (Option String × Option String) :=
  match d.find "style.css" with
  | none => Except.ok (none, none)
  | some content =>
    match search_file_for_key content "Text Domain:" with
    | Except.error e => Except.error e
    | Except.ok name =>
      match search_file_for_key content "Version:" with
      | Except.error e => Except.error e
      | Except.ok version => Except.ok (name, version)

/-- Embedding of `get_file_from_each_subdirectory` (analyser.py lines
228-238).  `walk1` models `next(os.walk(path))[1]`: `none` when `path` does
not exist (the generator is exhausted and `next` raises `StopIteration`),
otherwise the list of first-level subdirectory names.  On `none` the
function raises (`Except.error`); otherwise it yields `path/d/fileName` for
each subdirectory in which that file exists. -/
def get_file_from_each_subdirectory (walk1 : Option (List String))
    (isFile : String → Bool) (path fileName : String) : Except String (List String) :=
  match walk1 with
  | none => Except.error ("No path " ++ path)
  | some subdirs =>
    Except.ok ((subdirs.map (fun d => pyJoin (pyJoin path d) fileName)).filter isFile)

mutual
/-- Model of a `filecmp.dircmp` result tree (the recursive comparison
primitive `analyze` consumes): the two compared directory paths, the names
only on one side, the names of common files whose contents differ, and the
comparison results of the common subdirectories (`dcres.subdirs.values()`).
`Dircmp` and `DircmpList` are mutually inductive so that the recursion of
`analyze` is structural. -/
inductive Dircmp : Type where
  | mk (left right : String) (diff_files left_only right_only : List String)
      (subdirs : DircmpList) : Dircmp
/-- List of child comparison nodes, mutually inductive with `Dircmp`. -/
inductive DircmpList : Type where
  | nil : DircmpList
  | cons (head : Dircmp) (tail : DircmpList) : DircmpList
end

/-- Left directory path of a comparison node. -/
def Dircmp.left : Dircmp → String
  | .mk l _ _ _ _ _ => l

/-- Right directory path of a comparison node. -/
def Dircmp.right : Dircmp → String
  | .mk _ r _ _ _ _ => r

/-- Names of common files whose contents differ at this node. -/
def Dircmp.diff_files : Dircmp → List String
  | .mk _ _ df _ _ _ => df

/-- Names present only in the left directory at this node. -/
def Dircmp.left_only : Dircmp → List String
  | .mk _ _ _ lo _ _ => lo

/-- Names present only in the right directory at this node. -/
def Dircmp.right_only : Dircmp → List String
  | .mk _ _ _ _ ro _ => ro

/-- Comparison results of the common subdirectories of a node. -/
def Dircmp.subdirs : Dircmp → DircmpList
  | .mk _ _ _ _ _ subs => subs

/-- View of a `DircmpList` as an ordinary list. -/
def DircmpList.toList : DircmpList → List Dircmp
  | .nil => []
  | .cons d ds => d :: ds.toList

/-- Result accumulator of `analyze`: the three path sets. -/
structure AnalyzeResult where
  diff : Finset String
  extra : Finset String
  missing : Finset String

/-- Step 1 of `analyze` (line 330-331): every differing file name joined to
the node's left path. -/
def nodeDiff (d : Dircmp) : Finset String :=
  (d.diff_files.map (fun f => pyJoin d.left f)).toFinset

/-- Step 2 of `analyze` (lines 334-338): every left-only name joined to the
left path, kept only when it is neither ignored nor a directory. -/
def nodeExtra (isDir : String → Bool) (cwd wpPath : String) (d : Dircmp) : Finset String :=
  ((d.left_only.map (fun name => pyJoin d.left name)).filter
    (fun path => !ignored_file cwd path wpPath && !isDir path)).toFinset

/-- Step 3 of `analyze` (lines 341-342): every right-only name joined to the
right path, unconditionally. -/
def nodeMissing (d : Dircmp) : Finset String :=
  (d.right_only.map (fun f => pyJoin d.right f)).toFinset

mutual
/-- Embedding of `analyze` (analyser.py lines 309-351).  `isDir` models the
`os.path.isdir` probe and `cwd` the working directory `os.path.abspath`
resolves against.  `analyzeSubs` is the recursion loop over the
subdirectories (lines 345-349), unioning each child's three sets into the
accumulator. -/
def analyze (isDir : String → Bool) (cwd wpPath : String) : Dircmp → AnalyzeResult
  | .mk left right df lo ro subs =>
    analyzeSubs isDir cwd wpPath subs
      ⟨nodeDiff (.mk left right df lo ro subs),
       nodeExtra isDir cwd wpPath (.mk left right df lo ro subs),
       nodeMissing (.mk left right df lo ro subs)⟩
def analyzeSubs (isDir : String → Bool) (cwd wpPath : String) :
    DircmpList → AnalyzeResult → AnalyzeResult
  | .nil, acc => acc
  | .cons d ds, acc =>
    let r := analyze isDir cwd wpPath d
    analyzeSubs isDir cwd wpPath ds ⟨acc.diff ∪ r.diff, acc.extra ∪ r.extra, acc.missing ∪ r.missing⟩
end

/-- Section label of the fourth block of `print_analysis`. -/
def phpFilesLabel : String := "PHP FILES IN 'WP-CONTENT/UPLOADS': ("

/-- One section of the report: the label with the element count, then every
path on its own line in sorted order (`sorted` of a Python set). -/
def printSection (label : String) (s : Finset String) : List String :=
  (label ++ Nat.repr s.card ++ ")") :: s.sort (· ≤ ·)

/-- Embedding of `print_analysis` (analyser.py lines 354-370) as the list of
printed lines. -/
def print_analysis (diff extra missing extraPHP : Finset String) : List String :=
  printSection "DIFF: (" diff ++ printSection "EXTRA: (" extra ++
    printSection "MISSING: (" missing ++ printSection phpFilesLabel extraPHP

/-- Helper: a candidate whose file is missing, or readable with no usable
value, is passed over by the candidate loop of `find_plugin_details`. -/
theorem tryVariants_skip (d : PDir) (fn key : String) (rest : List (String × String))
    (h : ∀ c, d.find fn = some c →
      ∃ lines, c = some lines ∧ searchLinesForKey key lines = none) :
    tryVariants d ((fn, key) :: rest) = tryVariants d rest := by
  cases hf : d.find fn with
  | none => simp [tryVariants, hf]
  | some c =>
    obtain ⟨lines, rfl, hs⟩ := h c hf
    simp [tryVariants, hf, search_file_for_key, hs]

/-- Helper: a candidate whose file is readable and yields a value stops the
candidate loop with that value. -/
theorem tryVariants_hit (d : PDir) (fn key : String) (rest : List (String × String))
    (lines : List String) (v : String) (hf : d.find fn = some (some lines))
    (hs : searchLinesForKey key lines = some v) :
    tryVariants d ((fn, key) :: rest) = Except.ok (some v) := by
  simp [tryVariants, hf, search_file_for_key, hs]

/-- C9: requesting the immediate-subdirectory listing of a nonexistent root
is fatal: `get_file_from_each_subdirectory` raises (returns `Except.error`
with the `No path` message), and never an absent or empty `ok` result. -/
theorem c9_nonexistent_root_fatal :
    ∀ (isFile : String → Bool) (path fileName : String),
      get_file_from_each_subdirectory none isFile path fileName =
          Except.error ("No path " ++ path) ∧
        ∀ res : List String,
          get_file_from_each_subdirectory none isFile path fileName ≠ Except.ok res := by
  intro isFile path fileName
  refine ⟨rfl, fun res h => ?_⟩
  simp [get_file_from_each_subdirectory] at h

/-- C7 counterexample: `search_file_for_key` does not surface an open
failure as an absent result — it raises (models the unguarded
`filepath.open`), and the failure propagates out of
`find_plugin_details` instead of letting the enumeration continue. -/
theorem c7_counterexample_key_scan_raises :
    search_file_for_key none "Version:" = Except.error () ∧
      (∀ r : Option String, search_file_for_key none "Version:" ≠ Except.ok r) ∧
      find_plugin_details ⟨"p", [("readme.txt", none)]⟩ = Except.error () := by
  refine ⟨rfl, fun r h => ?_, rfl⟩
  simp [search_file_for_key] at h

/-- C7 amended: scans that go through `open_file` (`search_file_for_string`,
and with it `find_wp_version`) surface an unopenable file as an
absent/false result, while `search_file_for_key` propagates the open
failure as an exception through `find_theme_details` and
`find_plugin_details`. -/
theorem c7_open_failure_behaviour :
    (∀ s : String, search_file_for_string none s = none) ∧
      find_wp_version none = none ∧
      (∀ key : String, search_file_for_key none key = Except.error ()) ∧
      find_theme_details ⟨"t", [("style.css", none)]⟩ = Except.error () := by
  exact ⟨fun s => rfl, rfl, fun key => rfl, rfl⟩

/-- C8 counterexample: theme extraction does not default the artifact name
to the directory's own name — a theme directory without `style.css` yields
an absent name, not the directory name. -/
theorem c8_counterexample_theme_name_absent :
    find_theme_details ⟨"twentytwenty", []⟩ = Except.ok (none, none) ∧
      (none : Option String) ≠ some "twentytwenty" := by
  exact ⟨rfl, by decide⟩

/-- C8 amended: plugin extraction always returns the directory's own name,
and an absent version when every candidate file is missing or yields no
value; theme extraction returns `(absent, absent)` when `style.css` is
missing (its name comes from the `Text Domain:` label, not the directory
name). -/
theorem c8_artifact_name_defaults (d : PDir) :
    (∀ r : String × Option String, find_plugin_details d = Except.ok r → r.1 = d.name) ∧
      ((∀ c, d.find "readme.txt" = some c →
          ∃ lines, c = some lines ∧ searchLinesForKey "Stable tag:" lines = none) →
        (∀ c, d.find (d.name ++ ".php") = some c →
          ∃ lines, c = some lines ∧ searchLinesForKey "Version:" lines = none) →
        (∀ c, d.find (strReplace d.name '-' '_' ++ ".php") = some c →
          ∃ lines, c = some lines ∧ searchLinesForKey "Version:" lines = none) →
        find_plugin_details d = Except.ok (d.name, none)) ∧
      (d.find "style.css" = none → find_theme_details d = Except.ok (none, none)) := by
  refine ⟨?_, ?_, ?_⟩
  · intro r hr
    cases h : tryVariants d (pluginVariants d) with
    | error e => simp [find_plugin_details, h, Except.map] at hr
    | ok v =>
      simp [find_plugin_details, h, Except.map] at hr
      rw [show r = (d.name, v) from hr.symm]
  · intro h1 h2 h3
    have e1 := tryVariants_skip d "readme.txt" "Stable tag:"
      [(d.name ++ ".php", "Version:"), (strReplace d.name '-' '_' ++ ".php", "Version:")] h1
    have e2 := tryVariants_skip d (d.name ++ ".php") "Version:"
      [(strReplace d.name '-' '_' ++ ".php", "Version:")] h2
    have e3 := tryVariants_skip d (strReplace d.name '-' '_' ++ ".php") "Version:" [] h3
    have hv : tryVariants d (pluginVariants d) = Except.ok none := by
      show tryVariants d [("readme.txt", "Stable tag:"), (d.name ++ ".php", "Version:"),
        (strReplace d.name '-' '_' ++ ".php", "Version:")] = Except.ok none
      rw [e1, e2, e3]
      rfl
    show (tryVariants d (pluginVariants d)).map (fun v => (d.name, v)) =
      Except.ok (d.name, none)
    rw [hv]
    rfl
  · intro h
    simp [find_theme_details, h]

/-- C8 witness: a plugin directory with no files at all still yields the
directory name with an absent version. -/
theorem c8_witness :
    find_plugin_details ⟨"q", []⟩ = Except.ok ("q", none) :=
  (c8_artifact_name_defaults ⟨"q", []⟩).2.1
    (fun c hc => by simp [PDir.find] at hc)
    (fun c hc => by simp [PDir.find] at hc)
    (fun c hc => by simp [PDir.find] at hc)

/-- C5 counterexample: the value is not taken from the first line containing
the key with empty values treated as candidate failure — a readme whose
first `Stable tag:` line has an empty value still yields the value of a
later line of the same file, not an absent version. -/
theorem c5_counterexample_empty_line_skipped :
    find_plugin_details ⟨"p", [("readme.txt", some ["Stable tag:", "Stable tag: 9.9"])]⟩ =
        Except.ok ("p", some "9.9") ∧
      (Except.ok ("p", some "9.9") : Except Unit (String × Option String)) ≠
        Except.ok ("p", none) := by
  refine ⟨rfl, fun h => ?_⟩
  simp at h

/-- C5 amended: candidate files are tried in priority order (`readme.txt`
with `Stable tag:`, then `<dirname>.php`, then the underscore-normalised
`<dirname>.php`, both with `Version:`), the scan takes the trimmed substring
after the key from the first line whose trimmed value is non-empty (lines
with an empty trimmed value are skipped, not treated as candidate failure),
and extraction stops at the first candidate yielding a value — so a plugin
directory whose readme has no `Stable tag:` line but whose named PHP file
has a `Version:` line yields the PHP file's value. -/
theorem c5_plugin_version_fallback :
    (∀ (key l : String) (lines : List String),
        (findSub l.data key.data = none ∨
          ∃ pos, findSub l.data key.data = some pos ∧
            pyStrip ⟨l.data.drop (pos + key.length)⟩ = "") →
        searchLinesForKey key (l :: lines) = searchLinesForKey key lines) ∧
      (∀ (key l : String) (lines : List String) (pos : Nat),
        findSub l.data key.data = some pos →
        pyStrip ⟨l.data.drop (pos + key.length)⟩ ≠ "" →
        searchLinesForKey key (l :: lines) =
          some (pyStrip ⟨l.data.drop (pos + key.length)⟩)) ∧
      (∀ (d : PDir) (lines : List String) (v : String),
        d.find "readme.txt" = some (some lines) →
        searchLinesForKey "Stable tag:" lines = some v →
        find_plugin_details d = Except.ok (d.name, some v)) ∧
      (∀ (d : PDir) (rlines plines : List String) (v : String),
        d.find "readme.txt" = some (some rlines) →
        searchLinesForKey "Stable tag:" rlines = none →
        d.find (d.name ++ ".php") = some (some plines) →
        searchLinesForKey "Version:" plines = some v →
        find_plugin_details d = Except.ok (d.name, some v)) := by
  refine ⟨?_, ?_, ?_, ?_⟩
  · intro key l lines h
    rcases h with h | ⟨pos, hpos, hempty⟩
    · simp [searchLinesForKey, h]
    · simp [searchLinesForKey, hpos, hempty]
  · intro key l lines pos hpos hval
    simp [searchLinesForKey, hpos, hval]
  · intro d lines v hf hs
    have e := tryVariants_hit d "readme.txt" "Stable tag:"
      [(d.name ++ ".php", "Version:"), (strReplace d.name '-' '_' ++ ".php", "Version:")]
      lines v hf hs
    simp [find_plugin_details, pluginVariants, e, Except.map]
  · intro d rlines plines v hf hempty hp hs
    have e1 : tryVariants d (pluginVariants d) =
        tryVariants d [(d.name ++ ".php", "Version:"),
          (strReplace d.name '-' '_' ++ ".php", "Version:")] := by
      apply tryVariants_skip
      intro c hc
      rw [hf] at hc
      exact ⟨rlines, by injection hc with h; exact h.symm, hempty⟩
    have e2 := tryVariants_hit d (d.name ++ ".php") "Version:"
      [(strReplace d.name '-' '_' ++ ".php", "Version:")] plines v hp hs
    simp [find_plugin_details, pluginVariants] at e1
    simp [find_plugin_details, pluginVariants, e1, e2, Except.map]

/-- C5 witness: a concrete plugin directory with a readme lacking any
`Stable tag:` line and a named PHP file carrying `Version: 2.0` yields the
PHP file's value. -/
theorem c5_witness :
    find_plugin_details ⟨"p1", [("readme.txt", some ["hello"]),
        ("p1.php", some ["Version: 2.0"])]⟩ = Except.ok ("p1", some "2.0") :=
  c5_plugin_version_fallback.2.2.2 ⟨"p1", [("readme.txt", some ["hello"]),
      ("p1.php", some ["Version: 2.0"])]⟩ ["hello"] ["Version: 2.0"] "2.0"
    (by decide) (by decide) (by decide) (by decide)

/-- Helper: `firstIdx` finds the first occurrence of `c`. -/
theorem firstIdx_append (c : Char) (a t : List Char) (h : c ∉ a) :
    firstIdx c (a ++ c :: t) = some a.length := by
  induction a with
  | nil => simp [firstIdx]
  | cons x a ih =>
    have hx : ¬ x = c := fun hc => h (by simp [hc])
    have ha : c ∉ a := fun hc => h (List.mem_cons_of_mem x hc)
    simp [firstIdx, hx, ih ha]

/-- Helper: a successful `firstIdx` search decomposes the list at the first
occurrence of `c`. -/
theorem firstIdx_eq_some (c : Char) :
    ∀ (l : List Char) (k : Nat), firstIdx c l = some k →
      ∃ pre post, l = pre ++ c :: post ∧ pre.length = k ∧ c ∉ pre := by
  intro l
  induction l with
  | nil => intro k h; simp [firstIdx] at h
  | cons x t ih =>
    intro k h
    by_cases hx : x = c
    · refine ⟨[], t, by simp [hx], ?_, by simp⟩
      simp [firstIdx, hx] at h
      simpa using h
    · simp only [firstIdx, if_neg hx, Option.map_eq_some'] at h
      obtain ⟨k', hk', rfl⟩ := h
      obtain ⟨pre, post, rfl, hlen, hmem⟩ := ih k' hk'
      exact ⟨x :: pre, post, by simp, by simp [hlen], by
        intro hc
        rcases List.mem_cons.mp hc with hc | hc
        · exact hx hc.symm
        · exact hmem hc⟩

/-- Helper: slicing the middle block out of a three-part concatenation. -/
theorem slice_middle (X Y Z : List Char) :
    ((X ++ (Y ++ Z)).take (X.length + Y.length)).drop X.length = Y := by
  rw [List.take_append, List.take_left, List.drop_left]

/-- Helper: full characterisation of the quote-cutting step of
`find_wp_version`.  It succeeds exactly when the line splits as
`a ++ quote ++ v ++ quote ++ b` where `a` is quote-free (so the quote after
`a` is the first of the line), `v` is non-empty and quote-free after its
first character (the closing quote is the first quote at distance at least
two from the opening one); the value is then `v`. -/
theorem extract_wp_version_char (line v : String) :
    extract_wp_version line = some v ↔
      ∃ a b : List Char,
        line.data = a ++ quoteChar :: (v.data ++ quoteChar :: b) ∧
          quoteChar ∉ a ∧ v.data ≠ [] ∧ quoteChar ∉ v.data.drop 1 := by
  constructor
  · intro h
    unfold extract_wp_version at h
    cases h0 : firstIdx quoteChar line.data with
    | none =>
      have hA : strFindChar line quoteChar 0 = -1 := by
        simp [strFindChar, h0]
      rw [hA] at h
      dsimp only at h
      rw [if_pos (Or.inl (by omega))] at h
      exact absurd h (by simp)
    | some i =>
      have hA : strFindChar line quoteChar 0 = (i : Int) := by
        simp [strFindChar, h0]
      rw [hA] at h
      dsimp only at h
      obtain ⟨a, rest, hl, hlen, hq⟩ := firstIdx_eq_some quoteChar line.data i h0
      have ht : ((i : Int) + 1 + 1).toNat = i + 2 := by omega
      rw [ht] at h
      have hdrop : line.data.drop (i + 2) = rest.drop 1 := by
        rw [hl, ← hlen, List.drop_append]
        rfl
      cases h1 : firstIdx quoteChar (rest.drop 1) with
      | none =>
        have hB : strFindChar line quoteChar (i + 2) = -1 := by
          unfold strFindChar
          rw [hdrop, h1]
        rw [hB] at h
        rw [if_pos (Or.inr (by omega))] at h
        exact absurd h (by simp)
      | some k =>
        have hB : strFindChar line quoteChar (i + 2) = ((i + 2 + k : Nat) : Int) := by
          unfold strFindChar
          rw [hdrop, h1]
          rfl
        rw [hB] at h
        rw [if_neg (by rintro (hc | hc) <;> omega)] at h
        have e1 : (((i + 2 + k : Nat) : Int)).toNat = i + 2 + k := by omega
        have e2 : (((i : Int)) + 1).toNat = i + 1 := by omega
        rw [e1, e2] at h
        obtain ⟨p2, b, hrest1, hlen2, hq2⟩ := firstIdx_eq_some quoteChar (rest.drop 1) k h1
        cases rest with
        | nil => exact absurd hrest1 (by simp)
        | cons r0 rest' =>
          rw [List.drop_succ_cons, List.drop_zero] at hrest1
          subst hrest1
          have hsplit : line.data =
              (a ++ [quoteChar]) ++ ((r0 :: p2) ++ (quoteChar :: b)) := by
            rw [hl]; simp
          have hslice : (line.data.take (i + 2 + k)).drop (i + 1) = r0 :: p2 := by
            rw [hsplit]
            have e3 : i + 2 + k = (a ++ [quoteChar]).length + (r0 :: p2).length := by
              simp [hlen, hlen2]
              omega
            have e4 : i + 1 = (a ++ [quoteChar]).length := by simp [hlen]
            rw [e3, e4, slice_middle]
          rw [hslice] at h
          have hv : v.data = r0 :: p2 := by
            rw [← Option.some.inj h]
          refine ⟨a, b, ?_, hq, by simp [hv], ?_⟩
          · rw [hl, hv]
            simp
          · rw [hv, List.drop_succ_cons, List.drop_zero]
            exact hq2
  · rintro ⟨a, b, hl, hqa, hvne, hqv⟩
    cases hv : v.data with
    | nil => exact absurd hv hvne
    | cons v0 v' =>
      have hqv' : quoteChar ∉ v' := by
        rw [hv, List.drop_succ_cons, List.drop_zero] at hqv
        exact hqv
      rw [hv] at hl
      have h0 : firstIdx quoteChar line.data = some a.length := by
        rw [hl]
        exact firstIdx_append quoteChar a _ hqa
      have hA : strFindChar line quoteChar 0 = (a.length : Int) := by
        simp [strFindChar, h0]
      have hdrop : line.data.drop (a.length + 2) = v' ++ quoteChar :: b := by
        rw [hl]
        have hs : a ++ quoteChar :: ((v0 :: v') ++ quoteChar :: b) =
            (a ++ [quoteChar, v0]) ++ (v' ++ quoteChar :: b) := by simp
        rw [hs]
        have e : a.length + 2 = (a ++ [quoteChar, v0]).length := by simp
        rw [e, List.drop_left]
      have h1 : firstIdx quoteChar (line.data.drop (a.length + 2)) = some v'.length := by
        rw [hdrop]
        exact firstIdx_append quoteChar v' b hqv'
      have hB : strFindChar line quoteChar (a.length + 2) =
          ((a.length + 2 + v'.length : Nat) : Int) := by
        simp [strFindChar, h1]
      unfold extract_wp_version
      rw [hA]
      dsimp only
      have ht : (((a.length : Int)) + 1 + 1).toNat = a.length + 2 := by omega
      rw [ht, hB]
      rw [if_neg (by rintro (hc | hc) <;> omega)]
      have e1 : (((a.length + 2 + v'.length : Nat) : Int)).toNat =
          a.length + 2 + v'.length := by omega
      have e2 : (((a.length : Int)) + 1).toNat = a.length + 1 := by omega
      rw [e1, e2]
      have hsplit : line.data =
          (a ++ [quoteChar]) ++ ((v0 :: v') ++ (quoteChar :: b)) := by
        rw [hl]; simp
      have hslice : (line.data.take (a.length + 2 + v'.length)).drop (a.length + 1) =
          v0 :: v' := by
        rw [hsplit]
        have e3 : a.length + 2 + v'.length =
            (a ++ [quoteChar]).length + (v0 :: v').length := by
          simp
          omega
        have e4 : a.length + 1 = (a ++ [quoteChar]).length := by simp
        rw [e3, e4, slice_middle]
      rw [hslice, ← hv]

/-- Helper: file-level characterisation of `find_wp_version`: it returns a
version exactly when the first line containing the marker splits around the
line's first quote pair (opening quote anywhere in the line, closing quote
at distance at least two). -/
theorem find_wp_version_char (file : Option (List String)) (v : String) :
    find_wp_version file = some v ↔
      ∃ line, search_file_for_string file "$wp_version =" = some line ∧
        ∃ a b : List Char,
          line.data = a ++ quoteChar :: (v.data ++ quoteChar :: b) ∧
            quoteChar ∉ a ∧ v.data ≠ [] ∧ quoteChar ∉ v.data.drop 1 := by
  cases hs : search_file_for_string file "$wp_version =" with
  | none =>
    have hf : find_wp_version file = none := by
      unfold find_wp_version
      rw [hs]
    rw [hf]
    constructor
    · intro h
      exact absurd h (by simp)
    · rintro ⟨line', hl', -⟩
      exact absurd hl' (by simp)
  | some line =>
    have hf : find_wp_version file = if line = "" then none else extract_wp_version line := by
      unfold find_wp_version
      rw [hs]
    rw [hf]
    by_cases hemp : line = ""
    · subst hemp
      rw [if_pos rfl]
      constructor
      · intro h
        exact absurd h (by simp)
      · rintro ⟨line', hl', a, b, hdec, -⟩
        injection hl' with h
        subst h
        have hne : ("" : String).data = [] := rfl
        rw [hne] at hdec
        exact absurd hdec.symm (by simp)
    · rw [if_neg hemp]
      constructor
      · intro h
        exact ⟨line, rfl, (extract_wp_version_char line v).mp h⟩
      · rintro ⟨line', hl', hdec⟩
        injection hl' with h
        subst h
        exact (extract_wp_version_char line v).mpr hdec

/-- C4 counterexample: the quote search starts at the beginning of the line,
not after the `$wp_version =` marker.  On a line with a quoted fragment
before the marker the code cuts between the line's first two quotes and
returns `a`, not the `6.4.2` between the first two quotes following the
marker. -/
theorem c4_counterexample_quote_before_marker :
    find_wp_version (some ["'a' $wp_version = '6.4.2';"]) = some "a" ∧
      find_wp_version (some ["'a' $wp_version = '6.4.2';"]) ≠ some "6.4.2" := by
  exact ⟨by decide, by decide⟩

/-- C4 amended: `find_wp_version` scans for the first line containing the
assignment marker and cuts the literal between the line's first single quote
and the next single quote at index at least two past it (both searched from
the start of the line, not from the marker); it is absent when the marker is
not found (including an unopenable file), when there is no quote
(opening cut index `≤ 0`), or when there is no closing quote (closing index
`≤` opening index) — so `$wp_version = '6.4.2';` yields `6.4.2` and
`$wp_version = ;` yields absent. -/
theorem c4_version_extraction :
    (∀ (file : Option (List String)) (v : String),
        find_wp_version file = some v ↔
          ∃ line, search_file_for_string file "$wp_version =" = some line ∧
            ∃ a b : List Char,
              line.data = a ++ quoteChar :: (v.data ++ quoteChar :: b) ∧
                quoteChar ∉ a ∧ v.data ≠ [] ∧ quoteChar ∉ v.data.drop 1) ∧
      find_wp_version (some ["$wp_version = '6.4.2';"]) = some "6.4.2" ∧
      find_wp_version (some ["$wp_version = ;"]) = none ∧
      (∀ file, search_file_for_string file "$wp_version =" = none →
        find_wp_version file = none) := by
  refine ⟨find_wp_version_char, by decide, by decide, ?_⟩
  intro file hs
  unfold find_wp_version
  rw [hs]

/-- C10 counterexample: a line whose quoted literal (the text between the
first two single quotes) is empty need not give an absent result — with a
third quote the closing-quote search, which starts two places past the
opening quote, finds that third quote and the function returns the middle
quote itself. -/
theorem c10_counterexample_triple_quote :
    find_wp_version (some ["$wp_version = '''"]) = some "'" ∧
      find_wp_version (some ["$wp_version = '''"]) ≠ none := by
  exact ⟨by decide, by decide⟩

/-- C10 amended: `find_wp_version` never returns the empty string — the
closing-quote search starts two places past the opening quote, so any
successful cut is at least one character long; in particular the line
`$wp_version = '';`, whose quoted literal is empty and which has no later
quote, yields absent. -/
theorem c10_version_never_empty :
    (∀ (file : Option (List String)) (v : String),
        find_wp_version file = some v → v ≠ "") ∧
      find_wp_version (some ["$wp_version = '';"]) = none := by
  constructor
  · intro file v h hcon
    obtain ⟨line, hl, a, b, hdec, hqa, hvne, hqv⟩ := (find_wp_version_char file v).mp h
    subst hcon
    exact hvne rfl
  · decide

/-- C10 witness: the first conjunct of `c10_version_never_empty` applied to a
concrete version file. -/
theorem c10_witness : ("6.4.2" : String) ≠ "" :=
  c10_version_never_empty.1 (some ["$wp_version = '6.4.2';"]) "6.4.2" (by decide)

/-- Reachability of a comparison node inside a comparison tree: the root
itself, or a node reachable inside one of the subdirectories (the recursion
of `analyze` visits exactly these nodes). -/
inductive Subnode : Dircmp → Dircmp → Prop where
  | refl (d : Dircmp) : Subnode d d
  | step {n s d : Dircmp} : s ∈ d.subdirs.toList → Subnode n s → Subnode n d

/-- Helper: members of a `DircmpList` are structurally smaller than the
list, for the recursion of `analyze_mem_char`. -/
theorem sizeOf_lt_of_mem_dlist :
    ∀ (l : DircmpList) (s : Dircmp), s ∈ l.toList → sizeOf s < sizeOf l
  | .nil, s, h => by
    simp [DircmpList.toList] at h
  | .cons d ds, s, h => by
    rw [DircmpList.toList] at h
    rcases List.mem_cons.mp h with rfl | h
    · simp [DircmpList.cons.sizeOf_spec]
      omega
    · have := sizeOf_lt_of_mem_dlist ds s h
      simp [DircmpList.cons.sizeOf_spec]
      omega

/-- Helper: inversion of `Subnode` at a constructed node. -/
theorem subnode_mk_iff (n : Dircmp) (left right : String) (df lo ro : List String)
    (subs : DircmpList) :
    Subnode n (.mk left right df lo ro subs) ↔
      n = .mk left right df lo ro subs ∨ ∃ s ∈ subs.toList, Subnode n s := by
  constructor
  · intro h
    cases h with
    | refl => exact Or.inl rfl
    | step hmem hsub => exact Or.inr ⟨_, hmem, hsub⟩
  · rintro (rfl | ⟨s, hmem, hsub⟩)
    · exact Subnode.refl _
    · exact Subnode.step hmem hsub

/-- Helper: membership in the per-node diff contribution. -/
theorem mem_nodeDiff (d : Dircmp) (p : String) :
    p ∈ nodeDiff d ↔ ∃ f ∈ d.diff_files, pyJoin d.left f = p := by
  simp [nodeDiff]

/-- Helper: membership in the per-node missing contribution. -/
theorem mem_nodeMissing (d : Dircmp) (p : String) :
    p ∈ nodeMissing d ↔ ∃ f ∈ d.right_only, pyJoin d.right f = p := by
  simp [nodeMissing]

/-- Helper: membership in the per-node extra contribution: a left-only name
joined to the left path, not ignored and not a directory. -/
theorem mem_nodeExtra (isDir : String → Bool) (cwd wpPath : String) (d : Dircmp) (p : String) :
    p ∈ nodeExtra isDir cwd wpPath d ↔
      (∃ f ∈ d.left_only, pyJoin d.left f = p) ∧
        ignored_file cwd p wpPath = false ∧ isDir p = false := by
  simp [nodeExtra, List.mem_filter, Bool.and_eq_true, Bool.not_eq_true']

set_option maxHeartbeats 1600000 in
/-- Helper: membership in the three sets accumulated by the subdirectory
loop of `analyze`: the accumulator's members plus the members coming from
some child's recursive result. -/
theorem analyzeSubs_mem (isDir : String → Bool) (cwd wpPath : String) :
    ∀ (l : DircmpList) (acc : AnalyzeResult) (p : String),
      (p ∈ (analyzeSubs isDir cwd wpPath l acc).diff ↔
        p ∈ acc.diff ∨ ∃ s ∈ l.toList, p ∈ (analyze isDir cwd wpPath s).diff) ∧
      (p ∈ (analyzeSubs isDir cwd wpPath l acc).extra ↔
        p ∈ acc.extra ∨ ∃ s ∈ l.toList, p ∈ (analyze isDir cwd wpPath s).extra) ∧
      (p ∈ (analyzeSubs isDir cwd wpPath l acc).missing ↔
        p ∈ acc.missing ∨ ∃ s ∈ l.toList, p ∈ (analyze isDir cwd wpPath s).missing)
  | .nil, acc, p => by
    simp [analyzeSubs, DircmpList.toList]
  | .cons d ds, acc, p => by
    have hstep : analyzeSubs isDir cwd wpPath (.cons d ds) acc =
        analyzeSubs isDir cwd wpPath ds
          ⟨acc.diff ∪ (analyze isDir cwd wpPath d).diff,
           acc.extra ∪ (analyze isDir cwd wpPath d).extra,
           acc.missing ∪ (analyze isDir cwd wpPath d).missing⟩ := by
      rw [analyzeSubs.eq_2]
    rw [hstep]
    have h := analyzeSubs_mem isDir cwd wpPath ds
      ⟨acc.diff ∪ (analyze isDir cwd wpPath d).diff,
      acc.extra ∪ (analyze isDir cwd wpPath d).extra,
      acc.missing ∪ (analyze isDir cwd wpPath d).missing⟩ p
    refine ⟨?_, ?_, ?_⟩
    · rw [h.1]
      simp [DircmpList.toList, Finset.mem_union]
      tauto
    · rw [h.2.1]
      simp [DircmpList.toList, Finset.mem_union]
      tauto
    · rw [h.2.2]
      simp [DircmpList.toList, Finset.mem_union]
      tauto

/-- Helper: full membership characterisation of the three sets returned by
`analyze`: a path is in a set exactly when some node reachable in the tree
contributes it there. -/
theorem analyze_mem_char (isDir : String → Bool) (cwd wpPath : String) :
    ∀ (d : Dircmp) (p : String),
      (p ∈ (analyze isDir cwd wpPath d).diff ↔
        ∃ n, Subnode n d ∧ ∃ f ∈ n.diff_files, pyJoin n.left f = p) ∧
      (p ∈ (analyze isDir cwd wpPath d).extra ↔
        ∃ n, Subnode n d ∧ p ∈ nodeExtra isDir cwd wpPath n) ∧
      (p ∈ (analyze isDir cwd wpPath d).missing ↔
        ∃ n, Subnode n d ∧ ∃ f ∈ n.right_only, pyJoin n.right f = p)
  | .mk left right df lo ro subs, p => by
    have hsubs := analyzeSubs_mem isDir cwd wpPath subs
      ⟨nodeDiff (.mk left right df lo ro subs),
       nodeExtra isDir cwd wpPath (.mk left right df lo ro subs),
       nodeMissing (.mk left right df lo ro subs)⟩ p
    have hstep : analyze isDir cwd wpPath (.mk left right df lo ro subs) =
        analyzeSubs isDir cwd wpPath subs
          ⟨nodeDiff (.mk left right df lo ro subs),
           nodeExtra isDir cwd wpPath (.mk left right df lo ro subs),
           nodeMissing (.mk left right df lo ro subs)⟩ := by
      rw [analyze.eq_1]
    refine ⟨?_, ?_, ?_⟩
    · rw [hstep]
      rw [hsubs.1]
      constructor
      · rintro (hbase | ⟨s, hmem, hps⟩)
        · exact ⟨.mk left right df lo ro subs, Subnode.refl _,
            (mem_nodeDiff _ p).mp hbase⟩
        · have hrec := (analyze_mem_char isDir cwd wpPath s p).1
          obtain ⟨n, hsub, hf⟩ := hrec.mp hps
          exact ⟨n, Subnode.step hmem hsub, hf⟩
      · rintro ⟨n, hsub, hf⟩
        rcases (subnode_mk_iff n left right df lo ro subs).mp hsub with rfl | ⟨s, hmem, hsub'⟩
        · exact Or.inl ((mem_nodeDiff _ p).mpr hf)
        · have hrec := (analyze_mem_char isDir cwd wpPath s p).1
          exact Or.inr ⟨s, hmem, hrec.mpr ⟨n, hsub', hf⟩⟩
    · rw [hstep]
      rw [hsubs.2.1]
      constructor
      · rintro (hbase | ⟨s, hmem, hps⟩)
        · exact ⟨.mk left right df lo ro subs, Subnode.refl _, hbase⟩
        · have hrec := (analyze_mem_char isDir cwd wpPath s p).2.1
          obtain ⟨n, hsub, hf⟩ := hrec.mp hps
          exact ⟨n, Subnode.step hmem hsub, hf⟩
      · rintro ⟨n, hsub, hf⟩
        rcases (subnode_mk_iff n left right df lo ro subs).mp hsub with rfl | ⟨s, hmem, hsub'⟩
        · exact Or.inl hf
        · have hrec := (analyze_mem_char isDir cwd wpPath s p).2.1
          exact Or.inr ⟨s, hmem, hrec.mpr ⟨n, hsub', hf⟩⟩
    · rw [hstep]
      rw [hsubs.2.2]
      constructor
      · rintro (hbase | ⟨s, hmem, hps⟩)
        · exact ⟨.mk left right df lo ro subs, Subnode.refl _,
            (mem_nodeMissing _ p).mp hbase⟩
        · have hrec := (analyze_mem_char isDir cwd wpPath s p).2.2
          obtain ⟨n, hsub, hf⟩ := hrec.mp hps
          exact ⟨n, Subnode.step hmem hsub, hf⟩
      · rintro ⟨n, hsub, hf⟩
        rcases (subnode_mk_iff n left right df lo ro subs).mp hsub with rfl | ⟨s, hmem, hsub'⟩
        · exact Or.inl ((mem_nodeMissing _ p).mpr hf)
        · have hrec := (analyze_mem_char isDir cwd wpPath s p).2.2
          exact Or.inr ⟨s, hmem, hrec.mpr ⟨n, hsub', hf⟩⟩
termination_by d _ => sizeOf d
decreasing_by
  all_goals
    have h1 := sizeOf_lt_of_mem_dlist subs s hmem
    simp [Dircmp.mk.sizeOf_spec]
    omega

/-- C1: for every node of the comparison tree, every right-only name joined
to that node's right path is in `missing`, and every differing name joined
to the left path is in `diff`, unconditionally — for every directory probe
and every installation root, so the ignore policy (which depends on the
root) and the directory check are never consulted for these two sets; only
extra-side files are subject to ignore suppression. -/
theorem c1_missing_diff_unconditional (isDir : String → Bool) (cwd wpPath : String)
    (root n : Dircmp) (h : Subnode n root) :
    (∀ f ∈ n.right_only, pyJoin n.right f ∈ (analyze isDir cwd wpPath root).missing) ∧
      (∀ f ∈ n.diff_files, pyJoin n.left f ∈ (analyze isDir cwd wpPath root).diff) := by
  constructor
  · intro f hf
    exact ((analyze_mem_char isDir cwd wpPath root (pyJoin n.right f)).2.2).mpr
      ⟨n, h, f, hf, rfl⟩
  · intro f hf
    exact ((analyze_mem_char isDir cwd wpPath root (pyJoin n.left f)).1).mpr
      ⟨n, h, f, hf, rfl⟩

/-- C1 witness: on a concrete one-node tree the right-only file is reported
missing even though everything is under an ignored root. -/
theorem c1_witness :
    pyJoin "right" "c.php" ∈
      (analyze (fun _ => false) "/cwd" "/wp"
        (.mk "left" "right" ["a.php"] [] ["c.php"] .nil)).missing :=
  (c1_missing_diff_unconditional (fun _ => false) "/cwd" "/wp"
      (.mk "left" "right" ["a.php"] [] ["c.php"] .nil)
      (.mk "left" "right" ["a.php"] [] ["c.php"] .nil)
      (Subnode.refl _)).1 "c.php" (by decide)

/-- C2 counterexample: the `missing` set can contain a directory path — a
name only in the right tree is added to `missing` without any `isdir`
check, so a directory present only on the reference side appears in the
result. -/
theorem c2_counterexample_missing_directory :
    (fun p => p == pyJoin "R" "d") (pyJoin "R" "d") = true ∧
      pyJoin "R" "d" ∈
        (analyze (fun p => p == pyJoin "R" "d") "/cwd" "/wp"
          (.mk "L" "R" [] [] ["d"] .nil)).missing := by
  constructor
  · simp
  · exact (analyze_mem_char (fun p => p == pyJoin "R" "d") "/cwd" "/wp"
      (.mk "L" "R" [] [] ["d"] .nil) (pyJoin "R" "d")).2.2.mpr
      ⟨.mk "L" "R" [] [] ["d"] .nil, Subnode.refl _, "d", by decide, rfl⟩

/-- C2 amended: the `extra` set never contains a directory (the `isdir`
probe is checked before adding), and `diff` contains no directory provided
the comparison primitive only lists regular files in `diff_files` (as
`filecmp.dircmp` guarantees); `missing`, however, is filled from
`right_only` without a directory check, so a directory present only in the
reference tree does appear there. -/
theorem c2_no_directory_in_diff_extra (isDir : String → Bool) (cwd wpPath : String)
    (root : Dircmp)
    (hdiff : ∀ n, Subnode n root → ∀ f ∈ n.diff_files, isDir (pyJoin n.left f) = false) :
    (∀ p ∈ (analyze isDir cwd wpPath root).diff, isDir p = false) ∧
      (∀ p ∈ (analyze isDir cwd wpPath root).extra, isDir p = false) := by
  constructor
  · intro p hp
    obtain ⟨n, hsub, f, hf, hfp⟩ := (analyze_mem_char isDir cwd wpPath root p).1.mp hp
    exact hfp ▸ hdiff n hsub f hf
  · intro p hp
    obtain ⟨n, hsub, hmem⟩ := (analyze_mem_char isDir cwd wpPath root p).2.1.mp hp
    exact ((mem_nodeExtra isDir cwd wpPath n p).mp hmem).2.2

/-- C2 witness: the amended statement applied to a concrete tree whose
differing entries are regular files. -/
theorem c2_witness :
    (∀ p ∈ (analyze (fun _ => false) "/cwd" "/wp"
        (.mk "L" "R" ["a"] ["b"] [] .nil)).diff, (fun _ => false) p = false) ∧
      (∀ p ∈ (analyze (fun _ => false) "/cwd" "/wp"
        (.mk "L" "R" ["a"] ["b"] [] .nil)).extra, (fun _ => false) p = false) :=
  c2_no_directory_in_diff_extra (fun _ => false) "/cwd" "/wp"
    (.mk "L" "R" ["a"] ["b"] [] .nil) (fun n _ f _ => rfl)

/-- C6: the report is exactly four sections in the fixed order DIFF, EXTRA,
MISSING, PHP FILES, each headed by its label with the section's element
count and followed by the section's paths, one per line, in sorted lexical
order with no other formatting (each body is precisely a duplicate-free
sorted enumeration of the input set); the concrete scenario from the spec
renders as stated. -/
theorem c6_report_sections :
    (∀ diff extra missing extraPHP : Finset String,
      ∃ b1 b2 b3 b4 : List String,
        print_analysis diff extra missing extraPHP =
            ("DIFF: (" ++ Nat.repr diff.card ++ ")") :: b1 ++
              ("EXTRA: (" ++ Nat.repr extra.card ++ ")") :: b2 ++
                ("MISSING: (" ++ Nat.repr missing.card ++ ")") :: b3 ++
                  (phpFilesLabel ++ Nat.repr extraPHP.card ++ ")") :: b4 ∧
          b1.Sorted (· ≤ ·) ∧ b1.toFinset = diff ∧ b1.Nodup ∧
          b2.Sorted (· ≤ ·) ∧ b2.toFinset = extra ∧ b2.Nodup ∧
          b3.Sorted (· ≤ ·) ∧ b3.toFinset = missing ∧ b3.Nodup ∧
          b4.Sorted (· ≤ ·) ∧ b4.toFinset = extraPHP ∧ b4.Nodup) ∧
      print_analysis {"x"} ∅ {"y", "z"} ∅ =
        ["DIFF: (1)", "x", "EXTRA: (0)", "MISSING: (2)", "y", "z",
         "PHP FILES IN 'WP-CONTENT/UPLOADS': (0)"] := by
  constructor
  · intro diff extra missing extraPHP
    exact ⟨diff.sort (· ≤ ·), extra.sort (· ≤ ·), missing.sort (· ≤ ·),
      extraPHP.sort (· ≤ ·), rfl,
      Finset.sort_sorted _ _, Finset.sort_toFinset _ _, Finset.sort_nodup _ _,
      Finset.sort_sorted _ _, Finset.sort_toFinset _ _, Finset.sort_nodup _ _,
      Finset.sort_sorted _ _, Finset.sort_toFinset _ _, Finset.sort_nodup _ _,
      Finset.sort_sorted _ _, Finset.sort_toFinset _ _, Finset.sort_nodup _ _⟩
  · have hx : ({"x"} : Finset String).sort (· ≤ ·) = ["x"] := Finset.sort_singleton _ _
    have he : (∅ : Finset String).sort (· ≤ ·) = [] := Finset.sort_empty _
    have h1 : ∀ b ∈ ({"z"} : Finset String), "y" ≤ b := by
      intro b hb
      rw [Finset.mem_singleton] at hb
      subst hb
      rw [String.le_iff_toList_le]
      decide
    have h2 : "y" ∉ ({"z"} : Finset String) := by decide
    have hyz : ({"y", "z"} : Finset String).sort (· ≤ ·) = ["y", "z"] := by
      rw [show ({"y", "z"} : Finset String) = insert "y" {"z"} from rfl]
      rw [Finset.sort_insert _ h1 h2, Finset.sort_singleton]
    show printSection "DIFF: (" {"x"} ++ printSection "EXTRA: (" ∅ ++
        printSection "MISSING: (" {"y", "z"} ++ printSection phpFilesLabel ∅ = _
    unfold printSection
    rw [hx, he, hyz]
    decide

/-- Helper: splitting on `/` never yields an empty piece list. -/
theorem splitSlash_ne_nil : ∀ l : List Char, splitSlash l ≠ []
  | [] => by simp [splitSlash]
  | c :: rest => by
    rw [show splitSlash (c :: rest) =
      (if c = '/' then [] :: splitSlash rest
       else
         match splitSlash rest with
         | [] => [[c]]
         | h :: t => (c :: h) :: t) from rfl]
    by_cases hc : c = '/'
    · simp [hc]
    · rw [if_neg hc]
      cases hr : splitSlash rest with
      | nil => simp
      | cons h t => simp

/-- Helper: splitting on `/` distributes over a separator occurrence. -/
theorem splitSlash_append : ∀ a b : List Char,
    splitSlash (a ++ '/' :: b) = splitSlash a ++ splitSlash b
  | [], b => by
    rw [List.nil_append]
    rw [show splitSlash ('/' :: b) =
      (if ('/' : Char) = '/' then [] :: splitSlash b
       else
         match splitSlash b with
         | [] => [['/']]
         | h :: t => ('/' :: h) :: t) from rfl]
    simp [splitSlash]
  | c :: a, b => by
    have ih := splitSlash_append a b
    rw [List.cons_append]
    rw [show splitSlash (c :: (a ++ '/' :: b)) =
      (if c = '/' then [] :: splitSlash (a ++ '/' :: b)
       else
         match splitSlash (a ++ '/' :: b) with
         | [] => [[c]]
         | h :: t => (c :: h) :: t) from rfl]
    rw [show splitSlash (c :: a) =
      (if c = '/' then [] :: splitSlash a
       else
         match splitSlash a with
         | [] => [[c]]
         | h :: t => (c :: h) :: t) from rfl]
    by_cases hc : c = '/'
    · simp [hc, ih]
    · rw [if_neg hc, if_neg hc, ih]
      cases hr : splitSlash a with
      | nil => exact absurd hr (splitSlash_ne_nil a)
      | cons h t => simp

/-- Helper: a separator-free piece splits into itself. -/
theorem splitSlash_no_slash : ∀ c : List Char, '/' ∉ c → splitSlash c = [c]
  | [], _ => rfl
  | a :: c, h => by
    have ha : ¬ a = '/' := fun e => h (by simp [e])
    have hc := splitSlash_no_slash c (fun e => h (List.mem_cons_of_mem a e))
    rw [show splitSlash (a :: c) =
      (if a = '/' then [] :: splitSlash c
       else
         match splitSlash c with
         | [] => [[a]]
         | h :: t => (a :: h) :: t) from rfl]
    rw [if_neg ha, hc]

/-- Helper: `os.path.join` preserves any component-suffix of the second
argument under splitting. -/
theorem splitSlash_pyJoin_ends (x y : String) (jy tail : List (List Char))
    (hy : splitSlash y.data = jy ++ tail) :
    ∃ j, splitSlash (pyJoin x y).data = j ++ tail := by
  unfold pyJoin
  split_ifs with hb ha
  · exact ⟨jy, hy⟩
  · rcases ha with ha | ha
    · refine ⟨jy, ?_⟩
      rw [String.data_append, ha, List.nil_append, hy]
    · obtain ⟨t, ht⟩ := List.getLast?_eq_some_iff.mp ha
      refine ⟨splitSlash t ++ jy, ?_⟩
      rw [String.data_append, ht]
      rw [show (t ++ ['/']) ++ y.data = t ++ '/' :: y.data from by simp]
      rw [splitSlash_append, hy, List.append_assoc]
  · refine ⟨splitSlash x.data ++ jy, ?_⟩
    rw [String.data_append, String.data_append]
    rw [show ("/" : String).data = ['/'] from rfl]
    rw [show x.data ++ ['/'] ++ y.data = x.data ++ '/' :: y.data from by simp]
    rw [splitSlash_append, hy, List.append_assoc]

/-- Helper: the `normpath` component loop appends an ordinary component (not
empty, not `.`, not `..`) unconditionally. -/
theorem normComp_plain (k : Nat) (acc : List (List Char)) (c : List Char)
    (h0 : c ≠ []) (h1 : c ≠ ['.']) (h2 : c ≠ ['.', '.']) :
    normComp k acc c = acc ++ [c] := by
  unfold normComp
  rw [if_neg (by simp [h0, h1]), if_pos (Or.inl h2)]

/-- Helper: joining components keeps a final pair of components as a literal
suffix of the joined path. -/
theorem joinComps_snoc2 : ∀ (A : List (List Char)) (c1 c2 : List Char),
    ∃ pre, joinComps (A ++ [c1, c2]) = pre ++ (c1 ++ '/' :: c2)
  | [], c1, c2 => ⟨[], by simp [joinComps]⟩
  | a :: A, c1, c2 => by
    obtain ⟨pre, hpre⟩ := joinComps_snoc2 A c1 c2
    refine ⟨a ++ '/' :: pre, ?_⟩
    cases hA : A ++ [c1, c2] with
    | nil => simp at hA
    | cons b bs =>
      rw [List.cons_append, hA]
      rw [show joinComps (a :: b :: bs) = a ++ '/' :: joinComps (b :: bs) from rfl]
      rw [← hA, hpre]
      simp

/-- Helper: a path whose split ends in two ordinary components normalises to
a string that literally ends in those two components joined by `/`. -/
theorem normpath_ends (p : String) (junk : List (List Char)) (c1 c2 : List Char)
    (hsplit : splitSlash p.data = junk ++ [c1, c2])
    (h10 : c1 ≠ []) (h11 : c1 ≠ ['.']) (h12 : c1 ≠ ['.', '.'])
    (h20 : c2 ≠ []) (h21 : c2 ≠ ['.']) (h22 : c2 ≠ ['.', '.']) :
    ∃ P, (normpath p).data = P ++ (c1 ++ '/' :: c2) := by
  unfold normpath
  dsimp only
  rw [hsplit]
  generalize normpathSlashes p.data = k
  rw [List.foldl_append]
  rw [show ∀ A : List (List Char),
    List.foldl (normComp k) A [c1, c2] = normComp k (normComp k A c1) c2 from fun A => rfl]
  rw [normComp_plain k _ c1 h10 h11 h12, normComp_plain k _ c2 h20 h21 h22]
  rw [show (List.foldl (normComp k) [] junk ++ [c1]) ++ [c2] =
    List.foldl (normComp k) [] junk ++ [c1, c2] from by simp]
  obtain ⟨pre, hpre⟩ := joinComps_snoc2 (List.foldl (normComp k) [] junk) c1 c2
  rw [hpre]
  rw [if_neg (by simp)]
  exact ⟨List.replicate k '/' ++ pre, by simp⟩

/-- Helper: the absolute form of `root/s` always ends, textually, in the two
components of the configured subpath `s`, whatever `root` and the working
directory are. -/
theorem abspath_pyJoin_ends (cwd root s : String) (c1 c2 : List Char)
    (hs : s.data = c1 ++ '/' :: c2) (h1s : '/' ∉ c1) (h2s : '/' ∉ c2)
    (h10 : c1 ≠ []) (h11 : c1 ≠ ['.']) (h12 : c1 ≠ ['.', '.'])
    (h20 : c2 ≠ []) (h21 : c2 ≠ ['.']) (h22 : c2 ≠ ['.', '.']) :
    ∃ P, (abspath cwd (pyJoin root s)).data = P ++ (c1 ++ '/' :: c2) := by
  have hys : splitSlash s.data = [] ++ [c1, c2] := by
    rw [hs, splitSlash_append, splitSlash_no_slash c1 h1s, splitSlash_no_slash c2 h2s]
    rfl
  obtain ⟨j1, hj1⟩ := splitSlash_pyJoin_ends root s [] [c1, c2] hys
  obtain ⟨j2, hj2⟩ := splitSlash_pyJoin_ends cwd (pyJoin root s) j1 [c1, c2] hj1
  exact normpath_ends (pyJoin cwd (pyJoin root s)) j2 c1 c2 hj2 h10 h11 h12 h20 h21 h22

/-- Helper: `is_subdir` is false whenever the candidate parent's absolute
form ends in two fixed components whose slash-terminated form does not occur
inside the child's absolute form. -/
theorem is_subdir_false_of_not_infix (cwd child parent : String) (c1 c2 : List Char)
    (hend : ∃ P, (abspath cwd parent).data = P ++ (c1 ++ '/' :: c2))
    (hinf : ¬ ((c1 ++ '/' :: c2) ++ ['/']) <:+: (abspath cwd child).data) :
    is_subdir cwd child parent = false := by
  cases h : is_subdir cwd child parent with
  | false => rfl
  | true =>
    exfalso
    unfold is_subdir at h
    dsimp only at h
    rw [List.isPrefixOf_iff_prefix] at h
    obtain ⟨P, hP⟩ := hend
    obtain ⟨t, ht⟩ := h
    apply hinf
    refine ⟨P, t, ?_⟩
    rw [← ht, String.data_append, hP, show ("/" : String).data = ['/'] from rfl]
    simp

/-- C3: `ignored_file` returns true exactly when some configured ignore
subpath occurs as a substring of the file path and the file path resolves to
a strict subdirectory of `installationRoot/s` — an absolute-path prefix
match with a path-separator boundary (so it returns false when no rule
matches); in particular, with the working directory `/cwd`, the sibling
path `wp-content/themes-backup/x.php` is not ignored for any installation
root. -/
theorem c3_ignored_file_characterisation :
    (∀ cwd f wpPath : String,
      ignored_file cwd f wpPath = true ↔
        ∃ s ∈ IGNORED_WP_DIRS, pyIn s f = true ∧
          ((abspath cwd (pyJoin wpPath s) ++ "/").data.isPrefixOf
            (abspath cwd f).data) = true) ∧
      ∀ root : String,
        ignored_file "/cwd" "wp-content/themes-backup/x.php" root = false := by
  constructor
  · intro cwd f wpPath
    simp [ignored_file, List.any_eq_true, Bool.and_eq_true, is_subdir]
  · intro root
    have hth : is_subdir "/cwd" "wp-content/themes-backup/x.php"
        (pyJoin root "wp-content/themes") = false := by
      apply is_subdir_false_of_not_infix "/cwd" _ _ "wp-content".data "themes".data
      · exact abspath_pyJoin_ends "/cwd" root "wp-content/themes" _ _ (by decide)
          (by decide) (by decide) (by decide) (by decide) (by decide) (by decide)
          (by decide) (by decide)
      · decide
    have hup : pyIn "wp-content/uploads" "wp-content/themes-backup/x.php" = false := by
      decide
    simp [ignored_file, IGNORED_WP_DIRS, hth, hup]
